import Mathlib

/-!
Shallow embedding of the Bitcoin wire-format codec in `src/lib.rs`
(CompactSize, Txid, OutPoint, Script, TransactionInput, BitcoinTransaction),
together with proofs of the specified properties.

Bytes are modelled as `Nat` (a real `u8` satisfies `b < 256`); byte buffers
are `List Nat`.  Machine-integer reads (`u16/u32/u64::from_le_bytes`) are
modelled by `leNat`, writes (`to_le_bytes`) by `natToLe`.  The one place
where the Rust code performs fallible machine arithmetic — the `usize`
addition `consumed + (len.value as usize)` in `Script::from_bytes` — is
modelled exactly, with a dedicated `panicked` outcome: a debug build aborts
on the overflowing addition, and a release build wraps modulo `2^64` and
then aborts on the out-of-bounds slice `bytes[consumed..total]` (the wrapped
total is always strictly below `consumed`), so both build modes abort and
`panicked` is faithful to both.
-/

/-- Little-endian value of a byte list: models `uNN::from_le_bytes`. -/
def leNat : List Nat → Nat
  | [] => 0
  | b :: bs => b + 256 * leNat bs

/-- `w`-byte little-endian encoding of `n % 256^w`: models `uNN::to_le_bytes`
(together with the truncating `as` casts, which take the value modulo the
target width). -/
def natToLe : Nat → Nat → List Nat
  | 0, _ => []
  | w + 1, n => n % 256 :: natToLe w (n / 256)

/-- All entries of a buffer are actual bytes, as guaranteed by Rust's `&[u8]`. -/
def ByteWF (bs : List Nat) : Prop := ∀ b ∈ bs, b < 256

instance (bs : List Nat) : Decidable (ByteWF bs) := by
  unfold ByteWF; exact inferInstance

/-- `enum BitcoinError` from the source. -/
inductive BitcoinError where
  | InsufficientBytes
  | InvalidFormat
deriving DecidableEq, Repr

/-- Outcome of a Rust decoder returning `Result<(T, usize), BitcoinError>`.
`panicked` models an aborted execution (integer-overflow or slice-bounds
abort); it is not a value of the Rust result type but an execution outcome. -/
inductive DecodeResult (α : Type) where
  | ok : α → Nat → DecodeResult α
  | err : BitcoinError → DecodeResult α
  | panicked : DecodeResult α
deriving DecidableEq, Repr

/-- `struct CompactSize { value: u64 }`. -/
structure CompactSize where
  value : Nat
deriving DecidableEq, Repr

/-- The `u64` type invariant of the `value` field. -/
def CompactSize.WF (c : CompactSize) : Prop := c.value < 2 ^ 64

instance (c : CompactSize) : Decidable c.WF := by
  unfold CompactSize.WF; exact inferInstance

/-- `CompactSize::to_bytes`. -/
def CompactSize.to_bytes (c : CompactSize) : List Nat :=
  if c.value ≤ 0xFC then [c.value]
  else if c.value ≤ 0xFFFF then 0xFD :: natToLe 2 c.value
  else if c.value ≤ 0xFFFFFFFF then 0xFE :: natToLe 4 c.value
  else 0xFF :: natToLe 8 c.value

/-- Common shape of the three marker arms of `CompactSize::from_bytes`:
check that `w` payload bytes follow the marker (the source tests
`bytes.len() < w + 1`, i.e. `rest.len() < w`), read the `w`-byte
little-endian payload, reject a value below the arm's canonical lower
bound `lo` as non-canonical, and report `w + 1` bytes consumed. -/
def CompactSize.payloadArm (w lo : Nat) (rest : List Nat) : DecodeResult CompactSize :=
  if rest.length < w then .err .InsufficientBytes
  else if leNat (rest.take w) < lo then .err .InvalidFormat
  else .ok ⟨leNat (rest.take w)⟩ (w + 1)

/-- `CompactSize::from_bytes`.  The final branch is the `0xFF` arm of the
source's exhaustive `u8` match (for well-formed bytes, reaching it forces
the first byte to be `0xFF`). -/
def CompactSize.from_bytes (bytes : List Nat) : DecodeResult CompactSize :=
  match bytes with
  | [] => .err .InsufficientBytes
  | b0 :: rest =>
    if b0 ≤ 0xFC then .ok ⟨b0⟩ 1
    else if b0 = 0xFD then CompactSize.payloadArm 2 0xFD rest
    else if b0 = 0xFE then CompactSize.payloadArm 4 0x10000 rest
    else CompactSize.payloadArm 8 0x100000000 rest

/-- `struct Txid(pub [u8; 32])`. -/
structure Txid where
  bytes : List Nat
deriving DecidableEq, Repr

/-- The `[u8; 32]` type invariant of `Txid`. -/
def Txid.WF (t : Txid) : Prop := t.bytes.length = 32 ∧ ByteWF t.bytes

instance (t : Txid) : Decidable t.WF := by
  unfold Txid.WF; exact inferInstance

/-- `struct OutPoint { txid: Txid, vout: u32 }`. -/
structure OutPoint where
  txid : Txid
  vout : Nat
deriving DecidableEq, Repr

/-- Type invariants of the `OutPoint` fields (`[u8; 32]` and `u32`). -/
def OutPoint.WF (o : OutPoint) : Prop := o.txid.WF ∧ o.vout < 2 ^ 32

instance (o : OutPoint) : Decidable o.WF := by
  unfold OutPoint.WF; exact inferInstance

/-- `OutPoint::to_bytes`. -/
def OutPoint.to_bytes (o : OutPoint) : List Nat :=
  o.txid.bytes ++ natToLe 4 o.vout

/-- `OutPoint::from_bytes`. -/
def OutPoint.from_bytes (bytes : List Nat) : DecodeResult OutPoint :=
  if bytes.length < 36 then .err .InsufficientBytes
  else .ok ⟨⟨bytes.take 32⟩, leNat ((bytes.drop 32).take 4)⟩ 36

/-- `struct Script { bytes: Vec<u8> }`. -/
structure Script where
  bytes : List Nat
deriving DecidableEq, Repr

/-- Type invariant of a Rust `Vec<u8>`: byte entries, and a length not
exceeding `isize::MAX` (every real `Vec` satisfies this bound). -/
def Script.WF (s : Script) : Prop := ByteWF s.bytes ∧ s.bytes.length < 2 ^ 63

instance (s : Script) : Decidable s.WF := by
  unfold Script.WF; exact inferInstance

/-- `Script::to_bytes`. -/
def Script.to_bytes (s : Script) : List Nat :=
  CompactSize.to_bytes ⟨s.bytes.length⟩ ++ s.bytes

/-- `Script::from_bytes`.  The source computes
`let total = consumed + (len.value as usize)` in `usize` arithmetic; when the
mathematical sum reaches `2^64` the Rust program aborts (debug builds on the
addition itself; release builds wrap `total` below `consumed`, pass the
`bytes.len() < total` test because the buffer already holds the `consumed`
prefix bytes, and then abort on the backwards slice `bytes[consumed..total]`),
which the `panicked` branch models. -/
def Script.from_bytes (bytes : List Nat) : DecodeResult Script :=
  match CompactSize.from_bytes bytes with
  | .err e => .err e
  | .panicked => .panicked
  | .ok len consumed =>
    if 2 ^ 64 ≤ consumed + len.value then .panicked
    else if bytes.length < consumed + len.value then .err .InsufficientBytes
    else .ok ⟨(bytes.drop consumed).take len.value⟩ (consumed + len.value)

/-- `struct TransactionInput`. -/
structure TransactionInput where
  previous_output : OutPoint
  script_sig : Script
  sequence : Nat
deriving DecidableEq, Repr

/-- Type invariants of the `TransactionInput` fields. -/
def TransactionInput.WF (i : TransactionInput) : Prop :=
  i.previous_output.WF ∧ i.script_sig.WF ∧ i.sequence < 2 ^ 32

instance (i : TransactionInput) : Decidable i.WF := by
  unfold TransactionInput.WF; exact inferInstance

/-- `TransactionInput::to_bytes`. -/
def TransactionInput.to_bytes (i : TransactionInput) : List Nat :=
  i.previous_output.to_bytes ++ i.script_sig.to_bytes ++ natToLe 4 i.sequence

/-- `TransactionInput::from_bytes`. -/
def TransactionInput.from_bytes (bytes : List Nat) : DecodeResult TransactionInput :=
  match OutPoint.from_bytes bytes with
  | .err e => .err e
  | .panicked => .panicked
  | .ok previous_output consumed1 =>
    match Script.from_bytes (bytes.drop consumed1) with
    | .err e => .err e
    | .panicked => .panicked
    | .ok script_sig consumed2 =>
      if bytes.length < consumed1 + consumed2 + 4 then .err .InsufficientBytes
      else
        .ok ⟨previous_output, script_sig,
             leNat ((bytes.drop (consumed1 + consumed2)).take 4)⟩
          (consumed1 + consumed2 + 4)

/-- `struct BitcoinTransaction`. -/
structure BitcoinTransaction where
  version : Nat
  inputs : List TransactionInput
  lock_time : Nat
deriving DecidableEq, Repr

/-- Type invariants of the `BitcoinTransaction` fields (`u32` bounds and the
`Vec` length bound). -/
def BitcoinTransaction.WF (t : BitcoinTransaction) : Prop :=
  t.version < 2 ^ 32 ∧ t.lock_time < 2 ^ 32 ∧ t.inputs.length < 2 ^ 63 ∧
    ∀ i ∈ t.inputs, i.WF

instance (t : BitcoinTransaction) : Decidable t.WF := by
  unfold BitcoinTransaction.WF; exact inferInstance

/-- `BitcoinTransaction::to_bytes`. -/
def BitcoinTransaction.to_bytes (t : BitcoinTransaction) : List Nat :=
  natToLe 4 t.version ++ CompactSize.to_bytes ⟨t.inputs.length⟩ ++
    (t.inputs.map TransactionInput.to_bytes).flatten ++ natToLe 4 t.lock_time

/-- The `for _ in 0..input_count.value` loop of `BitcoinTransaction::from_bytes`.
The `Nat` carried by `ok` is the final absolute offset (the source's `offset`
variable after the loop). -/
def decodeInputs (bytes : List Nat) : Nat → Nat → DecodeResult (List TransactionInput)
  | offset, 0 => .ok [] offset
  | offset, count + 1 =>
    match TransactionInput.from_bytes (bytes.drop offset) with
    | .err e => .err e
    | .panicked => .panicked
    | .ok input consumed =>
      match decodeInputs bytes (offset + consumed) count with
      | .err e => .err e
      | .panicked => .panicked
      | .ok inputs last => .ok (input :: inputs) last

/-- `BitcoinTransaction::from_bytes`. -/
def BitcoinTransaction.from_bytes (bytes : List Nat) : DecodeResult BitcoinTransaction :=
  if bytes.length < 4 then .err .InsufficientBytes
  else
    match CompactSize.from_bytes (bytes.drop 4) with
    | .err e => .err e
    | .panicked => .panicked
    | .ok input_count consumed1 =>
      match decodeInputs bytes (4 + consumed1) input_count.value with
      | .err e => .err e
      | .panicked => .panicked
      | .ok inputs offset =>
        if bytes.length < offset + 4 then .err .InsufficientBytes
        else
          .ok ⟨leNat (bytes.take 4), inputs, leNat ((bytes.drop offset).take 4)⟩
            (offset + 4)

/-- Hexadecimal digit value of an ASCII code, case-insensitive: models the
digit table of the external `hex` crate used by `Txid`'s serde
implementations.  Strings are modelled as lists of ASCII codes (hex strings
are pure ASCII). -/
def hexDigitVal (c : Nat) : Option Nat :=
  if 48 ≤ c ∧ c ≤ 57 then some (c - 48)
  else if 97 ≤ c ∧ c ≤ 102 then some (c - 87)
  else if 65 ≤ c ∧ c ≤ 70 then some (c - 55)
  else none

/-- `hex::decode`: fails on a lone trailing character (odd length) and on any
non-hex character; otherwise turns each character pair into one byte,
high nibble first. -/
def hexDecode : List Nat → Option (List Nat)
  | [] => some []
  | [_] => none
  | hi :: lo :: rest =>
    match hexDigitVal hi with
    | none => none
    | some h =>
      match hexDigitVal lo with
      | none => none
      | some l =>
        match hexDecode rest with
        | none => none
        | some tail => some ((16 * h + l) :: tail)

/-- ASCII code of the lowercase hex digit for a nibble (`hex::encode` output
alphabet). -/
def hexDigitChar (n : Nat) : Nat := if n < 10 then 48 + n else 87 + n

/-- `hex::encode`: two lowercase hex characters per byte, high nibble first. -/
def hexEncode (bs : List Nat) : List Nat :=
  (bs.map fun b => [hexDigitChar (b / 16), hexDigitChar (b % 16)]).flatten

/-- Which serde custom error `Txid::deserialize` constructs: the propagated
`hex::decode` error, or the explicit "Txid must be 32 bytes" error.  Both are
`D::Error::custom` values in the source; this type only records which one. -/
inductive TxidDeError where
  | invalidHex
  | wrongLength
deriving DecidableEq, Repr

/-- `Txid::serialize`: writes `hex::encode(self.0)` as a string (modelled as
its ASCII code sequence). -/
def Txid.serializeHex (t : Txid) : List Nat := hexEncode t.bytes

/-- `Txid::deserialize`: reads a string, hex-decodes it, and requires exactly
32 bytes. -/
def Txid.deserializeHex (s : List Nat) : Except TxidDeError Txid :=
  match hexDecode s with
  | none => .error .invalidHex
  | some bytes => if bytes.length ≠ 32 then .error .wrongLength else .ok ⟨bytes⟩

/-- Uppercasing of an ASCII code (maps the lowercase hex letters `a`-`f` to
`A`-`F` and leaves everything else unchanged); used to state
case-insensitivity of hex decoding. -/
def hexUpper (c : Nat) : Nat := if 97 ≤ c ∧ c ≤ 102 then c - 32 else c

-- Basic facts about the little-endian helpers.

theorem natToLe_length (w n : Nat) : (natToLe w n).length = w := by
  induction w generalizing n with
  | zero => simp [natToLe]
  | succ w ih => simp [natToLe, ih]

theorem natToLe_wf (w n : Nat) : ByteWF (natToLe w n) := by
  induction w generalizing n with
  | zero => intro b hb; simp [natToLe] at hb
  | succ w ih =>
    intro b hb
    simp only [natToLe, List.mem_cons] at hb
    rcases hb with h | h
    · subst h; exact Nat.mod_lt _ (by norm_num)
    · exact ih _ _ h

theorem leNat_natToLe (w n : Nat) (h : n < 256 ^ w) : leNat (natToLe w n) = n := by
  induction w generalizing n with
  | zero => simp [pow_zero, Nat.lt_one_iff] at h; simp [natToLe, leNat, h]
  | succ w ih =>
    have hdiv : n / 256 < 256 ^ w := by
      rw [Nat.div_lt_iff_lt_mul (by norm_num)]
      calc n < 256 ^ (w + 1) := h
        _ = 256 ^ w * 256 := by ring
    simp only [natToLe, leNat, ih _ hdiv]
    omega

theorem natToLe_leNat (bs : List Nat) (h : ByteWF bs) :
    natToLe bs.length (leNat bs) = bs := by
  induction bs with
  | nil => simp [natToLe]
  | cons b tl ih =>
    have hb : b < 256 := h b (by simp)
    have htl : ByteWF tl := fun x hx => h x (by simp [hx])
    simp only [List.length_cons, natToLe, leNat]
    have h1 : (b + 256 * leNat tl) % 256 = b := by omega
    have h2 : (b + 256 * leNat tl) / 256 = leNat tl := by omega
    rw [h1, h2, ih htl]

theorem leNat_lt (bs : List Nat) (h : ByteWF bs) : leNat bs < 256 ^ bs.length := by
  induction bs with
  | nil => simp [leNat]
  | cons b tl ih =>
    have hb : b < 256 := h b (by simp)
    have htl := ih (fun x hx => h x (by simp [hx]))
    simp only [leNat, List.length_cons, pow_succ]
    calc b + 256 * leNat tl < 256 + 256 * leNat tl := by omega
      _ = 256 * (leNat tl + 1) := by ring
      _ ≤ 256 * 256 ^ tl.length := by
          have : leNat tl + 1 ≤ 256 ^ tl.length := htl
          exact Nat.mul_le_mul_left _ this
      _ = 256 ^ tl.length * 256 := by ring

theorem ByteWF_sub {bs bs' : List Nat} (hsub : bs' ⊆ bs) (h : ByteWF bs) : ByteWF bs' :=
  fun b hb => h b (hsub hb)

theorem ByteWF_append {a b : List Nat} (ha : ByteWF a) (hb : ByteWF b) :
    ByteWF (a ++ b) := by
  intro x hx
  rcases List.mem_append.mp hx with h | h
  · exact ha x h
  · exact hb x h

-- Properties of the CompactSize codec.

@[simp] theorem CompactSize.value_mk (n : Nat) :
    (({ value := n } : CompactSize)).value = n := rfl

theorem cs_fb_cons (b0 : Nat) (rest : List Nat) :
    CompactSize.from_bytes (b0 :: rest) =
      if b0 ≤ 0xFC then .ok ⟨b0⟩ 1
      else if b0 = 0xFD then CompactSize.payloadArm 2 0xFD rest
      else if b0 = 0xFE then CompactSize.payloadArm 4 0x10000 rest
      else CompactSize.payloadArm 8 0x100000000 rest := rfl

theorem cs_fb_fd (rest : List Nat) :
    CompactSize.from_bytes (0xFD :: rest) = CompactSize.payloadArm 2 0xFD rest := by
  rw [cs_fb_cons]
  norm_num

theorem cs_fb_fe (rest : List Nat) :
    CompactSize.from_bytes (0xFE :: rest) = CompactSize.payloadArm 4 0x10000 rest := by
  rw [cs_fb_cons]
  norm_num

theorem cs_fb_ff (rest : List Nat) :
    CompactSize.from_bytes (0xFF :: rest) = CompactSize.payloadArm 8 0x100000000 rest := by
  rw [cs_fb_cons]
  norm_num

theorem CompactSize.to_bytes_length_le (c : CompactSize) : c.to_bytes.length ≤ 9 := by
  unfold CompactSize.to_bytes
  split_ifs <;> simp [natToLe_length]

theorem CompactSize.to_bytes_length_pos (c : CompactSize) : 1 ≤ c.to_bytes.length := by
  unfold CompactSize.to_bytes
  split_ifs <;> simp [natToLe_length]

theorem CompactSize.arm_short {w lo : Nat} {rest : List Nat} (h : rest.length < w) :
    CompactSize.payloadArm w lo rest = .err .InsufficientBytes := by
  unfold CompactSize.payloadArm
  rw [if_pos h]

theorem CompactSize.arm_ok_facts {w lo : Nat} {rest : List Nat} {c : CompactSize} {k : Nat}
    (h : CompactSize.payloadArm w lo rest = .ok c k) :
    k = w + 1 ∧ w ≤ rest.length ∧ c.value = leNat (rest.take w) ∧
      lo ≤ leNat (rest.take w) := by
  unfold CompactSize.payloadArm at h
  split_ifs at h with h1 h2
  rw [DecodeResult.ok.injEq] at h
  obtain ⟨hc, hk⟩ := h
  subst hk
  subst hc
  exact ⟨rfl, by omega, rfl, by omega⟩

theorem CompactSize.arm_append {w lo : Nat} {rest ex : List Nat} {c : CompactSize} {k : Nat}
    (h : CompactSize.payloadArm w lo rest = .ok c k) :
    CompactSize.payloadArm w lo (rest ++ ex) = .ok c k := by
  obtain ⟨hk, hw, hv, hlo⟩ := CompactSize.arm_ok_facts h
  obtain ⟨v⟩ := c
  simp only [CompactSize.value_mk] at hv
  unfold CompactSize.payloadArm
  rw [List.take_append_of_le_length hw]
  rw [if_neg (by simp only [List.length_append]; omega), if_neg (by omega)]
  rw [← hv, hk]

theorem CompactSize.arm_encode {w lo n : Nat} (hlo : lo ≤ n) (hn : n < 256 ^ w)
    (ex : List Nat) :
    CompactSize.payloadArm w lo (natToLe w n ++ ex) = .ok ⟨n⟩ (w + 1) := by
  unfold CompactSize.payloadArm
  rw [List.take_left' (natToLe_length w n), leNat_natToLe w n hn]
  rw [if_neg (by simp [List.length_append, natToLe_length]), if_neg (by omega)]

theorem cs_ok_facts {bs : List Nat} {c : CompactSize} {k : Nat}
    (h : CompactSize.from_bytes bs = .ok c k) : 1 ≤ k ∧ k ≤ bs.length := by
  match bs with
  | [] => simp [CompactSize.from_bytes] at h
  | b0 :: rest =>
    simp only [CompactSize.from_bytes] at h
    split_ifs at h with h1 h2 h3
    · rw [DecodeResult.ok.injEq] at h
      simp [← h.2]
    · obtain ⟨hk, hw, -, -⟩ := CompactSize.arm_ok_facts h
      simp only [List.length_cons]
      omega
    · obtain ⟨hk, hw, -, -⟩ := CompactSize.arm_ok_facts h
      simp only [List.length_cons]
      omega
    · obtain ⟨hk, hw, -, -⟩ := CompactSize.arm_ok_facts h
      simp only [List.length_cons]
      omega

theorem cs_ok_append {bs ex : List Nat} {c : CompactSize} {k : Nat}
    (h : CompactSize.from_bytes bs = .ok c k) :
    CompactSize.from_bytes (bs ++ ex) = .ok c k := by
  match bs with
  | [] => simp [CompactSize.from_bytes] at h
  | b0 :: rest =>
    rw [List.cons_append]
    simp only [CompactSize.from_bytes] at h ⊢
    split_ifs at h ⊢ with h1 h2 h3
    · exact h
    · exact CompactSize.arm_append h
    · exact CompactSize.arm_append h
    · exact CompactSize.arm_append h

theorem cs_ok_wf {bs : List Nat} {c : CompactSize} {k : Nat} (hwf : ByteWF bs)
    (h : CompactSize.from_bytes bs = .ok c k) : c.WF := by
  match bs with
  | [] => simp [CompactSize.from_bytes] at h
  | b0 :: rest =>
    have hb0 : b0 < 256 := hwf b0 (by simp)
    have hrest : ByteWF rest := fun x hx => hwf x (by simp [hx])
    simp only [CompactSize.from_bytes] at h
    have harm : ∀ w lo, w ≤ 8 → CompactSize.payloadArm w lo rest = .ok c k → c.WF := by
      intro w lo hw8 harm
      obtain ⟨-, hw, hv, -⟩ := CompactSize.arm_ok_facts harm
      unfold CompactSize.WF
      rw [hv]
      have hlt := leNat_lt (rest.take w) (ByteWF_sub (List.take_subset _ _) hrest)
      have hlen : (rest.take w).length = w := by
        rw [List.length_take]
        omega
      rw [hlen] at hlt
      calc leNat (rest.take w) < 256 ^ w := hlt
        _ ≤ 256 ^ 8 := Nat.pow_le_pow_right (by norm_num) hw8
        _ = 2 ^ 64 := by norm_num
    split_ifs at h with h1 h2 h3
    · rw [DecodeResult.ok.injEq] at h
      unfold CompactSize.WF
      rw [← h.1, CompactSize.value_mk]
      omega
    · exact harm 2 0xFD (by norm_num) h
    · exact harm 4 0x10000 (by norm_num) h
    · exact harm 8 0x100000000 (by norm_num) h

theorem cs_roundtrip_append (c : CompactSize) (h : c.WF) (ex : List Nat) :
    CompactSize.from_bytes (c.to_bytes ++ ex) = .ok c c.to_bytes.length := by
  obtain ⟨n⟩ := c
  unfold CompactSize.WF at h
  rw [CompactSize.value_mk] at h
  unfold CompactSize.to_bytes
  simp only [CompactSize.value_mk]
  split_ifs with h1 h2 h3
  · simp only [List.cons_append, List.nil_append, CompactSize.from_bytes, if_pos h1,
      List.length_cons, List.length_nil]
  · rw [List.cons_append, cs_fb_fd, CompactSize.arm_encode (by omega) (by norm_num; omega) ex]
    simp [natToLe_length]
  · rw [List.cons_append, cs_fb_fe, CompactSize.arm_encode (by omega) (by norm_num; omega) ex]
    simp [natToLe_length]
  · rw [List.cons_append, cs_fb_ff, CompactSize.arm_encode (by omega) (by norm_num; omega) ex]
    simp [natToLe_length]

theorem cs_to_bytes_u8 {v : Nat} (h : v ≤ 0xFC) :
    CompactSize.to_bytes ⟨v⟩ = [v] := by
  unfold CompactSize.to_bytes
  simp only [CompactSize.value_mk]
  rw [if_pos h]

theorem cs_to_bytes_fd {v : Nat} (h1 : 0xFD ≤ v) (h2 : v ≤ 0xFFFF) :
    CompactSize.to_bytes ⟨v⟩ = 0xFD :: natToLe 2 v := by
  unfold CompactSize.to_bytes
  simp only [CompactSize.value_mk]
  rw [if_neg (by omega), if_pos h2]

theorem cs_to_bytes_fe {v : Nat} (h1 : 0x10000 ≤ v) (h2 : v ≤ 0xFFFFFFFF) :
    CompactSize.to_bytes ⟨v⟩ = 0xFE :: natToLe 4 v := by
  unfold CompactSize.to_bytes
  simp only [CompactSize.value_mk]
  rw [if_neg (by omega), if_neg (by omega), if_pos h2]

theorem cs_to_bytes_ff {v : Nat} (h1 : 0x100000000 ≤ v) :
    CompactSize.to_bytes ⟨v⟩ = 0xFF :: natToLe 8 v := by
  unfold CompactSize.to_bytes
  simp only [CompactSize.value_mk]
  rw [if_neg (by omega), if_neg (by omega), if_neg (by omega)]

theorem cs_c5_arm {w lo marker : Nat} {rest : List Nat} {c : CompactSize} {k : Nat}
    (hwfr : ByteWF rest)
    (h : CompactSize.payloadArm w lo rest = .ok c k)
    (hbranch : ∀ v : Nat, lo ≤ v → v < 256 ^ w →
      CompactSize.to_bytes ⟨v⟩ = marker :: natToLe w v) :
    CompactSize.to_bytes c = marker :: rest.take w ∧ k = w + 1 := by
  obtain ⟨hk, hw, hv, hlov⟩ := CompactSize.arm_ok_facts h
  have hwfw : ByteWF (rest.take w) := ByteWF_sub (List.take_subset _ _) hwfr
  have hlen : (rest.take w).length = w := by
    rw [List.length_take]
    omega
  have hlt := leNat_lt (rest.take w) hwfw
  rw [hlen] at hlt
  obtain ⟨v⟩ := c
  simp only [CompactSize.value_mk] at hv
  subst hv
  refine ⟨?_, hk⟩
  rw [hbranch _ hlov hlt]
  congr 1
  have hnl := natToLe_leNat (rest.take w) hwfw
  rw [hlen] at hnl
  exact hnl

theorem cs_roundtrip (c : CompactSize) (h : c.WF) :
    CompactSize.from_bytes c.to_bytes = .ok c c.to_bytes.length := by
  have := cs_roundtrip_append c h []
  simpa using this

theorem cs_c5 {bs : List Nat} {c : CompactSize} {k : Nat} (hwf : ByteWF bs)
    (h : CompactSize.from_bytes bs = .ok c k) : c.to_bytes = bs.take k := by
  match bs with
  | [] => simp [CompactSize.from_bytes] at h
  | b0 :: rest =>
    have hb0 : b0 < 256 := hwf b0 (by simp)
    have hrest : ByteWF rest := fun x hx => hwf x (by simp [hx])
    rw [cs_fb_cons] at h
    split_ifs at h with h1 h2 h3
    · rw [DecodeResult.ok.injEq] at h
      obtain ⟨hc, hk⟩ := h
      subst hc
      subst hk
      rw [cs_to_bytes_u8 h1]
      simp
    · obtain ⟨hto, hk⟩ := cs_c5_arm hrest h
        (fun v hv1 hv2 => cs_to_bytes_fd hv1 (by norm_num at hv2; omega))
      subst hk
      subst h2
      rw [hto, List.take_succ_cons]
    · obtain ⟨hto, hk⟩ := cs_c5_arm hrest h
        (fun v hv1 hv2 => cs_to_bytes_fe hv1 (by norm_num at hv2; omega))
      subst hk
      subst h3
      rw [hto, List.take_succ_cons]
    · have hb : b0 = 0xFF := by omega
      obtain ⟨hto, hk⟩ := cs_c5_arm hrest h
        (fun v hv1 _ => cs_to_bytes_ff hv1)
      subst hk
      subst hb
      rw [hto, List.take_succ_cons]

theorem cs_trunc (c : CompactSize) (h : c.WF) :
    ∀ k < c.to_bytes.length,
      CompactSize.from_bytes (c.to_bytes.take k) = .err .InsufficientBytes := by
  obtain ⟨n⟩ := c
  unfold CompactSize.WF at h
  rw [CompactSize.value_mk] at h
  intro k hk
  by_cases h1 : n ≤ 0xFC
  · rw [cs_to_bytes_u8 h1] at hk ⊢
    have hz : k = 0 := by
      simp only [List.length_cons, List.length_nil] at hk
      omega
    subst hz
    simp [CompactSize.from_bytes]
  · by_cases h2 : n ≤ 0xFFFF
    · rw [cs_to_bytes_fd (by omega) h2] at hk ⊢
      match k with
      | 0 => simp [CompactSize.from_bytes]
      | j + 1 =>
        simp only [List.length_cons, natToLe_length] at hk
        rw [List.take_succ_cons, cs_fb_fd]
        exact CompactSize.arm_short (by rw [List.length_take, natToLe_length]; omega)
    · by_cases h3 : n ≤ 0xFFFFFFFF
      · rw [cs_to_bytes_fe (by omega) h3] at hk ⊢
        match k with
        | 0 => simp [CompactSize.from_bytes]
        | j + 1 =>
          simp only [List.length_cons, natToLe_length] at hk
          rw [List.take_succ_cons, cs_fb_fe]
          exact CompactSize.arm_short (by rw [List.length_take, natToLe_length]; omega)
      · rw [cs_to_bytes_ff (by omega)] at hk ⊢
        match k with
        | 0 => simp [CompactSize.from_bytes]
        | j + 1 =>
          simp only [List.length_cons, natToLe_length] at hk
          rw [List.take_succ_cons, cs_fb_ff]
          exact CompactSize.arm_short (by rw [List.length_take, natToLe_length]; omega)

-- Properties of the OutPoint codec.

theorem op_ok_facts {bs : List Nat} {o : OutPoint} {k : Nat}
    (h : OutPoint.from_bytes bs = .ok o k) :
    k = 36 ∧ 36 ≤ bs.length ∧ o = ⟨⟨bs.take 32⟩, leNat ((bs.drop 32).take 4)⟩ := by
  unfold OutPoint.from_bytes at h
  split_ifs at h with h1
  rw [DecodeResult.ok.injEq] at h
  exact ⟨h.2.symm, by omega, h.1.symm⟩

theorem op_ok_append {bs ex : List Nat} {o : OutPoint} {k : Nat}
    (h : OutPoint.from_bytes bs = .ok o k) :
    OutPoint.from_bytes (bs ++ ex) = .ok o k := by
  obtain ⟨hk, hlen, ho⟩ := op_ok_facts h
  unfold OutPoint.from_bytes
  rw [if_neg (by simp only [List.length_append]; omega)]
  rw [List.take_append_of_le_length (by omega),
    List.drop_append_of_le_length (by omega),
    List.take_append_of_le_length (by rw [List.length_drop]; omega)]
  rw [← ho, hk]

theorem op_roundtrip_append (o : OutPoint) (h : o.WF) (ex : List Nat) :
    OutPoint.from_bytes (o.to_bytes ++ ex) = .ok o o.to_bytes.length := by
  obtain ⟨⟨tb⟩, v⟩ := o
  unfold OutPoint.WF Txid.WF at h
  obtain ⟨⟨hlen, hwf⟩, hv⟩ := h
  unfold OutPoint.to_bytes OutPoint.from_bytes
  rw [List.append_assoc]
  rw [if_neg (by simp only [List.length_append, natToLe_length, hlen]; omega)]
  rw [List.take_left' hlen, List.drop_left' hlen,
    List.take_left' (natToLe_length 4 v),
    leNat_natToLe 4 v (by norm_num at hv ⊢; omega)]
  simp [List.length_append, natToLe_length, hlen]

theorem op_roundtrip (o : OutPoint) (h : o.WF) :
    OutPoint.from_bytes o.to_bytes = .ok o o.to_bytes.length := by
  have := op_roundtrip_append o h []
  simpa using this

theorem op_to_bytes_length (o : OutPoint) (h : o.WF) : o.to_bytes.length = 36 := by
  unfold OutPoint.to_bytes
  rw [List.length_append, natToLe_length, h.1.1]

theorem op_c5 {bs : List Nat} {o : OutPoint} {k : Nat} (hwf : ByteWF bs)
    (h : OutPoint.from_bytes bs = .ok o k) : o.to_bytes = bs.take k := by
  obtain ⟨hk, hlen, ho⟩ := op_ok_facts h
  subst hk
  subst ho
  unfold OutPoint.to_bytes
  simp only
  have hl4 : ((bs.drop 32).take 4).length = 4 := by
    rw [List.length_take, List.length_drop]
    omega
  have hwf4 : ByteWF ((bs.drop 32).take 4) :=
    ByteWF_sub (fun x hx => List.drop_subset _ _ (List.take_subset _ _ hx)) hwf
  have := natToLe_leNat ((bs.drop 32).take 4) hwf4
  rw [hl4] at this
  rw [this]
  have : (36 : Nat) = 32 + 4 := by norm_num
  rw [this, List.take_add]

theorem op_trunc (o : OutPoint) (h : o.WF) :
    ∀ k < o.to_bytes.length,
      OutPoint.from_bytes (o.to_bytes.take k) = .err .InsufficientBytes := by
  intro k hk
  have h36 := op_to_bytes_length o h
  unfold OutPoint.from_bytes
  rw [if_pos (by rw [List.length_take]; omega)]

-- Properties of the Script codec.

theorem script_ok_facts {bs : List Nat} {s : Script} {k : Nat}
    (h : Script.from_bytes bs = .ok s k) :
    ∃ len consumed, CompactSize.from_bytes bs = .ok len consumed ∧
      consumed + len.value < 2 ^ 64 ∧ k = consumed + len.value ∧ k ≤ bs.length ∧
      s = ⟨(bs.drop consumed).take len.value⟩ := by
  unfold Script.from_bytes at h
  cases hcs : CompactSize.from_bytes bs with
  | err e => rw [hcs] at h; simp at h
  | panicked => rw [hcs] at h; simp at h
  | ok len consumed =>
    rw [hcs] at h
    simp only at h
    split_ifs at h with h1 h2
    rw [DecodeResult.ok.injEq] at h
    exact ⟨len, consumed, rfl, by omega, h.2.symm, by omega, h.1.symm⟩

theorem script_ok_append {bs ex : List Nat} {s : Script} {k : Nat}
    (h : Script.from_bytes bs = .ok s k) :
    Script.from_bytes (bs ++ ex) = .ok s k := by
  obtain ⟨len, consumed, hcs, hov, hk, hle, hs⟩ := script_ok_facts h
  have hcons := cs_ok_facts hcs
  unfold Script.from_bytes
  rw [@cs_ok_append _ ex _ _ hcs]
  simp only
  rw [if_neg (by omega), if_neg (by simp only [List.length_append]; omega)]
  rw [List.drop_append_of_le_length (by omega),
    List.take_append_of_le_length (by rw [List.length_drop]; omega)]
  rw [← hs, hk]

theorem script_roundtrip_append (s : Script) (h : s.WF) (ex : List Nat) :
    Script.from_bytes (s.to_bytes ++ ex) = .ok s s.to_bytes.length := by
  obtain ⟨hwf, hlen⟩ := h
  unfold Script.to_bytes
  rw [List.append_assoc]
  have hcswf : (⟨s.bytes.length⟩ : CompactSize).WF := by
    unfold CompactSize.WF
    rw [CompactSize.value_mk]
    norm_num at hlen ⊢
    omega
  have hcs := cs_roundtrip_append ⟨s.bytes.length⟩ hcswf (s.bytes ++ ex)
  unfold Script.from_bytes
  rw [hcs]
  simp only [CompactSize.value_mk]
  have hc9 := CompactSize.to_bytes_length_le (⟨s.bytes.length⟩ : CompactSize)
  rw [if_neg (by norm_num at hlen ⊢; omega)]
  rw [if_neg (by simp only [List.length_append]; omega)]
  rw [List.drop_left' rfl, List.take_append_of_le_length (by omega), List.take_length]
  simp [List.length_append]

theorem script_roundtrip (s : Script) (h : s.WF) :
    Script.from_bytes s.to_bytes = .ok s s.to_bytes.length := by
  have := script_roundtrip_append s h []
  simpa using this

theorem script_c5 {bs : List Nat} {s : Script} {k : Nat} (hwf : ByteWF bs)
    (h : Script.from_bytes bs = .ok s k) : s.to_bytes = bs.take k := by
  obtain ⟨len, consumed, hcs, hov, hk, hle, hs⟩ := script_ok_facts h
  have hcsl := cs_ok_facts hcs
  have hsl : s.bytes.length = len.value := by
    rw [hs]
    simp only [List.length_take, List.length_drop]
    omega
  have hcb : CompactSize.to_bytes ⟨s.bytes.length⟩ = bs.take consumed := by
    rw [hsl]
    have : (⟨len.value⟩ : CompactSize) = len := rfl
    rw [this]
    exact cs_c5 hwf hcs
  unfold Script.to_bytes
  rw [hcb, hk, List.take_add, hs]

theorem script_to_bytes_length (s : Script) :
    s.to_bytes.length = (CompactSize.to_bytes ⟨s.bytes.length⟩).length + s.bytes.length := by
  unfold Script.to_bytes
  rw [List.length_append]

theorem script_trunc (s : Script) (h : s.WF) :
    ∀ k < s.to_bytes.length,
      Script.from_bytes (s.to_bytes.take k) = .err .InsufficientBytes := by
  obtain ⟨hwf, hlen⟩ := h
  intro k hk
  have hcswf : (⟨s.bytes.length⟩ : CompactSize).WF := by
    unfold CompactSize.WF
    rw [CompactSize.value_mk]
    norm_num at hlen ⊢
    omega
  have hc9 := CompactSize.to_bytes_length_le (⟨s.bytes.length⟩ : CompactSize)
  rw [script_to_bytes_length] at hk
  set cb := CompactSize.to_bytes (⟨s.bytes.length⟩ : CompactSize) with hcb
  unfold Script.to_bytes
  rw [← hcb]
  by_cases hkc : k < cb.length
  · rw [List.take_append_of_le_length (by omega)]
    have htr := cs_trunc ⟨s.bytes.length⟩ hcswf k hkc
    rw [← hcb] at htr
    unfold Script.from_bytes
    rw [htr]
  · rw [List.take_append_eq_append_take, List.take_of_length_le (by omega)]
    have hcs := cs_roundtrip_append ⟨s.bytes.length⟩ hcswf (s.bytes.take (k - cb.length))
    rw [← hcb] at hcs
    unfold Script.from_bytes
    rw [hcs]
    simp only [CompactSize.value_mk]
    rw [if_neg (by norm_num at hlen ⊢; omega)]
    rw [if_pos]
    simp only [List.length_append, List.length_take]
    omega

-- Properties of the TransactionInput codec.

theorem ti_ok_facts {bs : List Nat} {i : TransactionInput} {k : Nat}
    (h : TransactionInput.from_bytes bs = .ok i k) :
    ∃ o s c2, OutPoint.from_bytes bs = .ok o 36 ∧
      Script.from_bytes (bs.drop 36) = .ok s c2 ∧
      k = 36 + c2 + 4 ∧ k ≤ bs.length ∧
      i = ⟨o, s, leNat ((bs.drop (36 + c2)).take 4)⟩ := by
  unfold TransactionInput.from_bytes at h
  cases hop : OutPoint.from_bytes bs with
  | err e => rw [hop] at h; simp at h
  | panicked => rw [hop] at h; simp at h
  | ok o c1 =>
    rw [hop] at h
    obtain ⟨hc1, hlen36, ho⟩ := op_ok_facts hop
    subst hc1
    simp only at h
    cases hsc : Script.from_bytes (bs.drop 36) with
    | err e => rw [hsc] at h; simp at h
    | panicked => rw [hsc] at h; simp at h
    | ok s c2 =>
      rw [hsc] at h
      simp only at h
      split_ifs at h with h1
      rw [DecodeResult.ok.injEq] at h
      exact ⟨o, s, c2, rfl, rfl, h.2.symm, by omega, h.1.symm⟩

theorem ti_ok_append {bs ex : List Nat} {i : TransactionInput} {k : Nat}
    (h : TransactionInput.from_bytes bs = .ok i k) :
    TransactionInput.from_bytes (bs ++ ex) = .ok i k := by
  obtain ⟨o, s, c2, hop, hsc, hk, hle, hi⟩ := ti_ok_facts h
  have hsfacts := script_ok_facts hsc
  obtain ⟨-, -, -, -, -, hc2le, -⟩ := hsfacts
  rw [List.length_drop] at hc2le
  unfold TransactionInput.from_bytes
  rw [@op_ok_append _ ex _ _ hop]
  simp only
  rw [List.drop_append_of_le_length (by omega), @script_ok_append _ ex _ _ hsc]
  simp only
  rw [if_neg (by simp only [List.length_append]; omega)]
  rw [List.drop_append_of_le_length (by omega),
    List.take_append_of_le_length (by rw [List.length_drop]; omega)]
  rw [← hi, hk]

theorem ti_roundtrip_append (i : TransactionInput) (h : i.WF) (ex : List Nat) :
    TransactionInput.from_bytes (i.to_bytes ++ ex) = .ok i i.to_bytes.length := by
  obtain ⟨o, s, q⟩ := i
  unfold TransactionInput.WF at h
  obtain ⟨ho, hs, hq⟩ := h
  simp only at ho hs hq
  have h36 : o.to_bytes.length = 36 := op_to_bytes_length o ho
  unfold TransactionInput.to_bytes
  simp only
  rw [List.append_assoc, List.append_assoc]
  unfold TransactionInput.from_bytes
  have hop := op_roundtrip_append o ho (s.to_bytes ++ (natToLe 4 q ++ ex))
  rw [h36] at hop
  rw [hop]
  simp only
  rw [List.drop_left' h36, script_roundtrip_append s hs (natToLe 4 q ++ ex)]
  simp only
  rw [if_neg (by simp only [List.length_append, natToLe_length]; omega)]
  have hdrop : (o.to_bytes ++ (s.to_bytes ++ (natToLe 4 q ++ ex))).drop
      (36 + s.to_bytes.length) = natToLe 4 q ++ ex := by
    rw [← List.append_assoc]
    exact List.drop_left' (by rw [List.length_append, h36])
  rw [hdrop, List.take_left' (natToLe_length 4 q),
    leNat_natToLe 4 q (by norm_num at hq ⊢; omega)]
  simp only [List.length_append, natToLe_length, h36]

theorem ti_roundtrip (i : TransactionInput) (h : i.WF) :
    TransactionInput.from_bytes i.to_bytes = .ok i i.to_bytes.length := by
  have := ti_roundtrip_append i h []
  simpa using this

theorem ti_to_bytes_length (i : TransactionInput) (h : i.WF) :
    i.to_bytes.length = 36 + i.script_sig.to_bytes.length + 4 := by
  unfold TransactionInput.to_bytes
  rw [List.length_append, List.length_append, natToLe_length,
    op_to_bytes_length i.previous_output h.1]

theorem ti_c5 {bs : List Nat} {i : TransactionInput} {k : Nat} (hwf : ByteWF bs)
    (h : TransactionInput.from_bytes bs = .ok i k) : i.to_bytes = bs.take k := by
  obtain ⟨o, s, c2, hop, hsc, hk, hle, hi⟩ := ti_ok_facts h
  have hopb : o.to_bytes = bs.take 36 := op_c5 hwf hop
  have hscb : s.to_bytes = (bs.drop 36).take c2 :=
    script_c5 (ByteWF_sub (List.drop_subset _ _) hwf) hsc
  have hl4 : ((bs.drop (36 + c2)).take 4).length = 4 := by
    rw [List.length_take, List.length_drop]
    omega
  have hwf4 : ByteWF ((bs.drop (36 + c2)).take 4) :=
    ByteWF_sub (fun x hx => List.drop_subset _ _ (List.take_subset _ _ hx)) hwf
  have hseq := natToLe_leNat ((bs.drop (36 + c2)).take 4) hwf4
  rw [hl4] at hseq
  subst hi
  unfold TransactionInput.to_bytes
  simp only
  rw [hopb, hscb, hseq, hk]
  have e1 : (36 : Nat) + c2 + 4 = (36 + c2) + 4 := by omega
  rw [e1, List.take_add, List.take_add]

theorem ti_trunc (i : TransactionInput) (h : i.WF) :
    ∀ k < i.to_bytes.length,
      TransactionInput.from_bytes (i.to_bytes.take k) = .err .InsufficientBytes := by
  obtain ⟨o, s, q⟩ := i
  unfold TransactionInput.WF at h
  obtain ⟨ho, hs, hq⟩ := h
  simp only at ho hs hq
  have h36 : o.to_bytes.length = 36 := op_to_bytes_length o ho
  intro k hk
  have hlen : (o.to_bytes ++ s.to_bytes ++ natToLe 4 q).length =
      36 + s.to_bytes.length + 4 := by
    simp only [List.length_append, natToLe_length, h36]
  unfold TransactionInput.to_bytes at hk ⊢
  simp only at hk ⊢
  rw [hlen] at hk
  by_cases hk1 : k < 36
  · unfold TransactionInput.from_bytes
    have hop : OutPoint.from_bytes ((o.to_bytes ++ s.to_bytes ++ natToLe 4 q).take k) =
        .err .InsufficientBytes := by
      unfold OutPoint.from_bytes
      rw [if_pos (by rw [List.length_take]; omega)]
    rw [hop]
  · rw [List.append_assoc, List.take_append_eq_append_take,
      List.take_of_length_le (by omega), h36]
    unfold TransactionInput.from_bytes
    have hop := op_roundtrip_append o ho ((s.to_bytes ++ natToLe 4 q).take (k - 36))
    rw [h36] at hop
    rw [hop]
    simp only
    rw [List.drop_left' h36]
    by_cases hk2 : k - 36 < s.to_bytes.length
    · rw [List.take_append_of_le_length (by omega)]
      rw [script_trunc s hs (k - 36) hk2]
    · rw [List.take_append_eq_append_take, List.take_of_length_le (by omega)]
      rw [script_roundtrip_append s hs (((natToLe 4 q)).take (k - 36 - s.to_bytes.length))]
      simp only
      rw [if_pos]
      simp only [List.length_append, List.length_take, natToLe_length, h36]
      omega

-- Properties of the transaction-input decoding loop.

theorem di_ok_append {bs ex : List Nat} {off cnt : Nat} {l : List TransactionInput}
    {last : Nat} (h : decodeInputs bs off cnt = .ok l last) :
    decodeInputs (bs ++ ex) off cnt = .ok l last := by
  induction cnt generalizing off l last with
  | zero =>
    unfold decodeInputs at h ⊢
    exact h
  | succ cnt ih =>
    unfold decodeInputs at h ⊢
    cases hti : TransactionInput.from_bytes (bs.drop off) with
    | err e => rw [hti] at h; simp at h
    | panicked => rw [hti] at h; simp at h
    | ok input consumed =>
      rw [hti] at h
      simp only at h
      obtain ⟨o, s, c2, -, -, hck, hcle, -⟩ := ti_ok_facts hti
      rw [List.length_drop] at hcle
      have hoff : off ≤ bs.length := by omega
      rw [List.drop_append_of_le_length hoff, @ti_ok_append _ ex _ _ hti]
      simp only
      cases hrec : decodeInputs bs (off + consumed) cnt with
      | err e => rw [hrec] at h; simp at h
      | panicked => rw [hrec] at h; simp at h
      | ok l2 last2 =>
        rw [hrec] at h
        simp only at h
        rw [ih hrec]
        simp only
        exact h

theorem di_ok_bounds {bs : List Nat} {off cnt : Nat} {l : List TransactionInput}
    {last : Nat} (h : decodeInputs bs off cnt = .ok l last) (hoff : off ≤ bs.length) :
    off ≤ last ∧ last ≤ bs.length ∧ l.length = cnt := by
  induction cnt generalizing off l with
  | zero =>
    unfold decodeInputs at h
    rw [DecodeResult.ok.injEq] at h
    obtain ⟨hl, hlast⟩ := h
    subst hl
    subst hlast
    exact ⟨le_rfl, hoff, rfl⟩
  | succ cnt ih =>
    unfold decodeInputs at h
    cases hti : TransactionInput.from_bytes (bs.drop off) with
    | err e => rw [hti] at h; simp at h
    | panicked => rw [hti] at h; simp at h
    | ok input consumed =>
      rw [hti] at h
      simp only at h
      obtain ⟨o, s, c2, -, -, hck, hcle, -⟩ := ti_ok_facts hti
      rw [List.length_drop] at hcle
      cases hrec : decodeInputs bs (off + consumed) cnt with
      | err e => rw [hrec] at h; simp at h
      | panicked => rw [hrec] at h; simp at h
      | ok l2 last2 =>
        rw [hrec] at h
        simp only [DecodeResult.ok.injEq] at h
        obtain ⟨hl, hlast⟩ := h
        subst hl
        subst hlast
        obtain ⟨h1, h2, h3⟩ := ih hrec (by omega)
        refine ⟨by omega, h2, by simp [h3]⟩

theorem di_roundtrip (l : List TransactionInput) (hwf : ∀ i ∈ l, i.WF) :
    ∀ (bs : List Nat) (off : Nat) (ex : List Nat),
      bs.drop off = (l.map TransactionInput.to_bytes).flatten ++ ex →
      decodeInputs bs off l.length =
        .ok l (off + (l.map TransactionInput.to_bytes).flatten.length) := by
  induction l with
  | nil =>
    intro bs off ex hdrop
    unfold decodeInputs
    simp
  | cons i tl ih =>
    intro bs off ex hdrop
    have hiwf : i.WF := hwf i (by simp)
    have htlwf : ∀ j ∈ tl, j.WF := fun j hj => hwf j (by simp [hj])
    rw [List.map_cons, List.flatten_cons, List.append_assoc] at hdrop
    rw [List.length_cons]
    unfold decodeInputs
    rw [hdrop, ti_roundtrip_append i hiwf ((tl.map TransactionInput.to_bytes).flatten ++ ex)]
    simp only
    have hdrop2 : bs.drop (off + i.to_bytes.length) =
        (tl.map TransactionInput.to_bytes).flatten ++ ex := by
      have e1 : bs.drop (off + i.to_bytes.length) = (bs.drop off).drop i.to_bytes.length := by
        rw [List.drop_drop]
      rw [e1, hdrop, List.drop_left' rfl]
    rw [ih htlwf bs (off + i.to_bytes.length) ex hdrop2]
    rw [DecodeResult.ok.injEq]
    refine ⟨rfl, ?_⟩
    simp only [List.map_cons, List.flatten_cons, List.length_append]
    omega

theorem di_c5 {bs : List Nat} {off cnt : Nat} {l : List TransactionInput} {last : Nat}
    (hwf : ByteWF bs) (h : decodeInputs bs off cnt = .ok l last) (hoff : off ≤ bs.length) :
    (l.map TransactionInput.to_bytes).flatten = (bs.drop off).take (last - off) := by
  induction cnt generalizing off l with
  | zero =>
    unfold decodeInputs at h
    rw [DecodeResult.ok.injEq] at h
    obtain ⟨hl, hlast⟩ := h
    subst hl
    subst hlast
    simp
  | succ cnt ih =>
    unfold decodeInputs at h
    cases hti : TransactionInput.from_bytes (bs.drop off) with
    | err e => rw [hti] at h; simp at h
    | panicked => rw [hti] at h; simp at h
    | ok input consumed =>
      rw [hti] at h
      simp only at h
      obtain ⟨o, s, c2, -, -, hck, hcle, -⟩ := ti_ok_facts hti
      rw [List.length_drop] at hcle
      have hti5 : input.to_bytes = (bs.drop off).take consumed :=
        ti_c5 (ByteWF_sub (List.drop_subset _ _) hwf) hti
      cases hrec : decodeInputs bs (off + consumed) cnt with
      | err e => rw [hrec] at h; simp at h
      | panicked => rw [hrec] at h; simp at h
      | ok l2 last2 =>
        rw [hrec] at h
        simp only [DecodeResult.ok.injEq] at h
        obtain ⟨hl, hlast⟩ := h
        subst hl
        subst hlast
        obtain ⟨hb1, hb2, -⟩ := di_ok_bounds hrec (by omega)
        have hrec5 := ih hrec (by omega)
        rw [List.map_cons, List.flatten_cons, hti5, hrec5]
        have e1 : last2 - off = consumed + (last2 - (off + consumed)) := by omega
        rw [e1, List.take_add]
        congr 2
        rw [List.drop_drop]

theorem di_trunc (l : List TransactionInput) (hwf : ∀ i ∈ l, i.WF) :
    ∀ (bs : List Nat) (off m : Nat),
      m < (l.map TransactionInput.to_bytes).flatten.length →
      bs.drop off = ((l.map TransactionInput.to_bytes).flatten).take m →
      decodeInputs bs off l.length = .err .InsufficientBytes := by
  induction l with
  | nil =>
    intro bs off m hm hdrop
    simp at hm
  | cons i tl ih =>
    intro bs off m hm hdrop
    have hiwf : i.WF := hwf i (by simp)
    have htlwf : ∀ j ∈ tl, j.WF := fun j hj => hwf j (by simp [hj])
    rw [List.map_cons, List.flatten_cons] at hm hdrop
    rw [List.length_append] at hm
    rw [List.length_cons]
    unfold decodeInputs
    by_cases hmi : m < i.to_bytes.length
    · rw [List.take_append_of_le_length (by omega)] at hdrop
      rw [hdrop, ti_trunc i hiwf m hmi]
    · rw [List.take_append_eq_append_take, List.take_of_length_le (by omega)] at hdrop
      rw [hdrop, ti_roundtrip_append i hiwf _]
      simp only
      have hdrop2 : bs.drop (off + i.to_bytes.length) =
          ((tl.map TransactionInput.to_bytes).flatten).take (m - i.to_bytes.length) := by
        have e1 : bs.drop (off + i.to_bytes.length) =
            (bs.drop off).drop i.to_bytes.length := by
          rw [List.drop_drop]
        rw [e1, hdrop, List.drop_left' rfl]
      rw [ih htlwf bs (off + i.to_bytes.length) (m - i.to_bytes.length) (by omega) hdrop2]

-- Properties of the BitcoinTransaction codec.

theorem tx_to_bytes_length (t : BitcoinTransaction) :
    t.to_bytes.length = 4 + (CompactSize.to_bytes ⟨t.inputs.length⟩).length +
      (t.inputs.map TransactionInput.to_bytes).flatten.length + 4 := by
  unfold BitcoinTransaction.to_bytes
  simp only [List.length_append, natToLe_length]

theorem tx_ok_facts {bs : List Nat} {t : BitcoinTransaction} {k : Nat}
    (h : BitcoinTransaction.from_bytes bs = .ok t k) :
    ∃ cnt c1 inputs off, 4 ≤ bs.length ∧
      CompactSize.from_bytes (bs.drop 4) = .ok cnt c1 ∧
      decodeInputs bs (4 + c1) cnt.value = .ok inputs off ∧
      k = off + 4 ∧ k ≤ bs.length ∧
      t = ⟨leNat (bs.take 4), inputs, leNat ((bs.drop off).take 4)⟩ := by
  unfold BitcoinTransaction.from_bytes at h
  split_ifs at h with h1
  cases hcs : CompactSize.from_bytes (bs.drop 4) with
  | err e => rw [hcs] at h; simp at h
  | panicked => rw [hcs] at h; simp at h
  | ok cnt c1 =>
    rw [hcs] at h
    simp only at h
    cases hdi : decodeInputs bs (4 + c1) cnt.value with
    | err e => rw [hdi] at h; simp at h
    | panicked => rw [hdi] at h; simp at h
    | ok inputs off =>
      rw [hdi] at h
      simp only at h
      split_ifs at h with h2
      rw [DecodeResult.ok.injEq] at h
      exact ⟨cnt, c1, inputs, off, by omega, rfl, hdi, h.2.symm, by omega, h.1.symm⟩

theorem tx_ok_append {bs ex : List Nat} {t : BitcoinTransaction} {k : Nat}
    (h : BitcoinTransaction.from_bytes bs = .ok t k) :
    BitcoinTransaction.from_bytes (bs ++ ex) = .ok t k := by
  obtain ⟨cnt, c1, inputs, off, h4, hcs, hdi, hk, hle, ht⟩ := tx_ok_facts h
  unfold BitcoinTransaction.from_bytes
  rw [if_neg (by simp only [List.length_append]; omega)]
  rw [List.drop_append_of_le_length (by omega), @cs_ok_append _ ex _ _ hcs]
  simp only
  rw [@di_ok_append _ ex _ _ _ _ hdi]
  simp only
  rw [if_neg (by simp only [List.length_append]; omega)]
  rw [List.take_append_of_le_length (by omega)]
  rw [List.drop_append_of_le_length (by omega),
    List.take_append_of_le_length (by rw [List.length_drop]; omega)]
  rw [← ht, hk]

theorem tx_roundtrip_append (t : BitcoinTransaction) (h : t.WF) (ex : List Nat) :
    BitcoinTransaction.from_bytes (t.to_bytes ++ ex) = .ok t t.to_bytes.length := by
  obtain ⟨v, inputs, lt⟩ := t
  unfold BitcoinTransaction.WF at h
  obtain ⟨hv, hlt, hilen, hiwf⟩ := h
  simp only at hv hlt hilen hiwf
  have hcwf : (⟨inputs.length⟩ : CompactSize).WF := by
    unfold CompactSize.WF
    rw [CompactSize.value_mk]
    norm_num at hilen ⊢
    omega
  unfold BitcoinTransaction.to_bytes
  simp only
  rw [List.append_assoc, List.append_assoc, List.append_assoc]
  unfold BitcoinTransaction.from_bytes
  rw [if_neg (by simp only [List.length_append, natToLe_length]; omega)]
  rw [List.drop_left' (natToLe_length 4 v)]
  rw [cs_roundtrip_append ⟨inputs.length⟩ hcwf
    ((inputs.map TransactionInput.to_bytes).flatten ++ (natToLe 4 lt ++ ex))]
  simp only [CompactSize.value_mk]
  have hdrop : (natToLe 4 v ++ (CompactSize.to_bytes ⟨inputs.length⟩ ++
      ((inputs.map TransactionInput.to_bytes).flatten ++ (natToLe 4 lt ++ ex)))).drop
      (4 + (CompactSize.to_bytes (⟨inputs.length⟩ : CompactSize)).length) =
      (inputs.map TransactionInput.to_bytes).flatten ++ (natToLe 4 lt ++ ex) := by
    rw [← List.append_assoc]
    exact List.drop_left' (by rw [List.length_append, natToLe_length])
  rw [di_roundtrip inputs hiwf _ _ (natToLe 4 lt ++ ex) hdrop]
  simp only
  rw [if_neg (by simp only [List.length_append, natToLe_length]; omega)]
  have hdrop2 : (natToLe 4 v ++ (CompactSize.to_bytes ⟨inputs.length⟩ ++
      ((inputs.map TransactionInput.to_bytes).flatten ++ (natToLe 4 lt ++ ex)))).drop
      (4 + (CompactSize.to_bytes (⟨inputs.length⟩ : CompactSize)).length +
        (inputs.map TransactionInput.to_bytes).flatten.length) =
      natToLe 4 lt ++ ex := by
    rw [← List.append_assoc, ← List.append_assoc]
    exact List.drop_left'
      (by simp only [List.length_append, natToLe_length])
  rw [hdrop2, List.take_left' (natToLe_length 4 lt),
    leNat_natToLe 4 lt (by norm_num at hlt ⊢; omega),
    List.take_append_of_le_length (by rw [natToLe_length]),
    List.take_of_length_le (by rw [natToLe_length]),
    leNat_natToLe 4 v (by norm_num at hv ⊢; omega)]
  rw [DecodeResult.ok.injEq]
  refine ⟨rfl, ?_⟩
  simp only [List.length_append, natToLe_length]

theorem tx_roundtrip (t : BitcoinTransaction) (h : t.WF) :
    BitcoinTransaction.from_bytes t.to_bytes = .ok t t.to_bytes.length := by
  have := tx_roundtrip_append t h []
  simpa using this

theorem tx_c5 {bs : List Nat} {t : BitcoinTransaction} {k : Nat} (hwf : ByteWF bs)
    (h : BitcoinTransaction.from_bytes bs = .ok t k) : t.to_bytes = bs.take k := by
  obtain ⟨cnt, c1, inputs, off, h4, hcs, hdi, hk, hle, ht⟩ := tx_ok_facts h
  obtain ⟨hc1ge, hc1le⟩ := cs_ok_facts hcs
  rw [List.length_drop] at hc1le
  obtain ⟨hoff1, hoff2, hcntlen⟩ := di_ok_bounds hdi (by omega)
  have hcsb : cnt.to_bytes = (bs.drop 4).take c1 :=
    cs_c5 (ByteWF_sub (List.drop_subset _ _) hwf) hcs
  have hflat := di_c5 hwf hdi (by omega)
  have hv4 : natToLe 4 (leNat (bs.take 4)) = bs.take 4 := by
    have hl : (bs.take 4).length = 4 := by
      rw [List.length_take]
      omega
    have hx := natToLe_leNat (bs.take 4) (ByteWF_sub (List.take_subset _ _) hwf)
    rw [hl] at hx
    exact hx
  have hl4 : natToLe 4 (leNat ((bs.drop off).take 4)) = (bs.drop off).take 4 := by
    have hl : ((bs.drop off).take 4).length = 4 := by
      rw [List.length_take, List.length_drop]
      omega
    have hx := natToLe_leNat ((bs.drop off).take 4)
      (ByteWF_sub (fun x hx => List.drop_subset _ _ (List.take_subset _ _ hx)) hwf)
    rw [hl] at hx
    exact hx
  subst ht
  unfold BitcoinTransaction.to_bytes
  simp only
  have hcnt_eta : (⟨inputs.length⟩ : CompactSize) = cnt := by
    rw [hcntlen]
  rw [hv4, hl4, hcnt_eta, hcsb, hflat, hk]
  have hsplit : bs.take (off + 4) =
      ((bs.take 4 ++ (bs.drop 4).take c1) ++
        (bs.drop (4 + c1)).take (off - (4 + c1))) ++ (bs.drop off).take 4 := by
    rw [List.take_add]
    congr 1
    nth_rewrite 1 [show off = (4 + c1) + (off - (4 + c1)) from by omega]
    rw [List.take_add, List.take_add]
  rw [hsplit]

theorem tx_trunc (t : BitcoinTransaction) (h : t.WF) :
    ∀ k < t.to_bytes.length,
      BitcoinTransaction.from_bytes (t.to_bytes.take k) = .err .InsufficientBytes := by
  obtain ⟨v, inputs, lt⟩ := t
  unfold BitcoinTransaction.WF at h
  obtain ⟨hv, hlt, hilen, hiwf⟩ := h
  simp only at hv hlt hilen hiwf
  have hcwf : (⟨inputs.length⟩ : CompactSize).WF := by
    unfold CompactSize.WF
    rw [CompactSize.value_mk]
    norm_num at hilen ⊢
    omega
  intro k hk
  unfold BitcoinTransaction.to_bytes at hk ⊢
  simp only at hk ⊢
  simp only [List.length_append, natToLe_length] at hk
  by_cases hk4 : k < 4
  · unfold BitcoinTransaction.from_bytes
    rw [if_pos]
    rw [List.length_take]
    simp only [List.length_append, natToLe_length]
    omega
  · rw [List.append_assoc, List.append_assoc, List.take_append_eq_append_take,
      List.take_of_length_le (by rw [natToLe_length]; omega), natToLe_length]
    unfold BitcoinTransaction.from_bytes
    rw [if_neg (by simp only [List.length_append, natToLe_length, List.length_take]; omega)]
    rw [List.drop_left' (natToLe_length 4 v)]
    by_cases hkc : k - 4 < (CompactSize.to_bytes (⟨inputs.length⟩ : CompactSize)).length
    · rw [List.take_append_of_le_length (by omega)]
      rw [cs_trunc ⟨inputs.length⟩ hcwf (k - 4) hkc]
    · rw [List.take_append_eq_append_take, List.take_of_length_le (by omega)]
      rw [cs_roundtrip_append ⟨inputs.length⟩ hcwf _]
      simp only [CompactSize.value_mk]
      have hdrop : (natToLe 4 v ++ (CompactSize.to_bytes ⟨inputs.length⟩ ++
          ((inputs.map TransactionInput.to_bytes).flatten ++ natToLe 4 lt).take
            (k - 4 - (CompactSize.to_bytes (⟨inputs.length⟩ : CompactSize)).length))).drop
          (4 + (CompactSize.to_bytes (⟨inputs.length⟩ : CompactSize)).length) =
          ((inputs.map TransactionInput.to_bytes).flatten ++ natToLe 4 lt).take
            (k - 4 - (CompactSize.to_bytes (⟨inputs.length⟩ : CompactSize)).length) := by
        rw [← List.append_assoc]
        exact List.drop_left' (by rw [List.length_append, natToLe_length])
      by_cases hm : k - 4 - (CompactSize.to_bytes (⟨inputs.length⟩ : CompactSize)).length <
          (inputs.map TransactionInput.to_bytes).flatten.length
      · have hdrop' := hdrop.trans (by rw [List.take_append_of_le_length (by omega)])
        rw [di_trunc inputs hiwf _ _ _ hm hdrop']
      · have hdrop' := hdrop.trans
          (by rw [List.take_append_eq_append_take, List.take_of_length_le (by omega)])
        rw [di_roundtrip inputs hiwf _ _ _ hdrop']
        simp only
        rw [if_pos]
        simp only [List.length_append, natToLe_length, List.length_take]
        omega

-- Properties of the Txid hex textual codec.

theorem hexDigitVal_hexDigitChar {n : Nat} (h : n ≤ 15) :
    hexDigitVal (hexDigitChar n) = some n := by
  unfold hexDigitChar
  by_cases h1 : n < 10
  · rw [if_pos h1]
    unfold hexDigitVal
    rw [if_pos (by omega)]
    congr 1
    omega
  · rw [if_neg h1]
    unfold hexDigitVal
    rw [if_neg (by omega), if_pos (by omega)]
    congr 1
    omega

theorem hexDecode_hexEncode (bs : List Nat) (h : ByteWF bs) :
    hexDecode (hexEncode bs) = some bs := by
  induction bs with
  | nil => rfl
  | cons b tl ih =>
    have hb : b < 256 := h b (by simp)
    have htl : ByteWF tl := fun x hx => h x (by simp [hx])
    unfold hexEncode at ih ⊢
    simp only [List.map_cons, List.flatten_cons, List.cons_append, List.nil_append]
    unfold hexDecode
    rw [hexDigitVal_hexDigitChar (by omega), hexDigitVal_hexDigitChar (by omega), ih htl]
    simp only
    have hbv : 16 * (b / 16) + b % 16 = b := by omega
    rw [hbv]

theorem hexDecode_odd : ∀ s : List Nat, s.length % 2 = 1 → hexDecode s = none
  | [], h => by simp at h
  | [_], _ => rfl
  | a :: b :: r, h => by
    have hr : r.length % 2 = 1 := by
      simp only [List.length_cons] at h
      omega
    unfold hexDecode
    rw [hexDecode_odd r hr]
    cases hexDigitVal a with
    | none => rfl
    | some va =>
      cases hexDigitVal b with
      | none => rfl
      | some vb => rfl

theorem hexDecode_nonhex : ∀ s : List Nat, (∃ c ∈ s, hexDigitVal c = none) →
    hexDecode s = none
  | [], h => by
    obtain ⟨c, hc, -⟩ := h
    simp at hc
  | [_], _ => rfl
  | a :: b :: r, h => by
    obtain ⟨c, hc, hnone⟩ := h
    unfold hexDecode
    rcases List.mem_cons.mp hc with rfl | hc2
    · rw [hnone]
    · rcases List.mem_cons.mp hc2 with rfl | hc3
      · rw [hnone]
        cases hexDigitVal a with
        | none => rfl
        | some va => rfl
      · rw [hexDecode_nonhex r ⟨c, hc3, hnone⟩]
        cases hexDigitVal a with
        | none => rfl
        | some va =>
          cases hexDigitVal b with
          | none => rfl
          | some vb => rfl

theorem hexDigitVal_hexUpper (c : Nat) : hexDigitVal (hexUpper c) = hexDigitVal c := by
  unfold hexUpper
  by_cases h : 97 ≤ c ∧ c ≤ 102
  · have hL : hexDigitVal (c - 32) = some (c - 87) := by
      unfold hexDigitVal
      rw [if_neg (by omega), if_neg (by omega), if_pos (by omega)]
      congr 1
    have hR : hexDigitVal c = some (c - 87) := by
      unfold hexDigitVal
      rw [if_neg (by omega), if_pos (by omega)]
    rw [if_pos h, hL, hR]
  · rw [if_neg h]

theorem hexDecode_upper : ∀ s : List Nat, hexDecode (s.map hexUpper) = hexDecode s
  | [] => rfl
  | [_] => rfl
  | a :: b :: r => by
    simp only [List.map_cons]
    unfold hexDecode
    rw [hexDigitVal_hexUpper a, hexDigitVal_hexUpper b, hexDecode_upper r]

theorem txid_hex_roundtrip (t : Txid) (h : t.WF) :
    Txid.deserializeHex (Txid.serializeHex t) = .ok t := by
  obtain ⟨bs⟩ := t
  unfold Txid.WF at h
  obtain ⟨hlen, hwf⟩ := h
  simp only at hlen hwf
  unfold Txid.serializeHex Txid.deserializeHex
  simp only
  rw [hexDecode_hexEncode bs hwf]
  simp only
  rw [if_neg (by simp [hlen])]

theorem txid_serialize_lowercase (t : Txid) (h : t.WF) :
    ∀ c ∈ Txid.serializeHex t, (48 ≤ c ∧ c ≤ 57) ∨ (97 ≤ c ∧ c ≤ 102) := by
  intro c hc
  unfold Txid.serializeHex hexEncode at hc
  rw [List.mem_flatten] at hc
  obtain ⟨l, hl, hcl⟩ := hc
  rw [List.mem_map] at hl
  obtain ⟨b, hb, rfl⟩ := hl
  have hdig : ∀ n : Nat, n ≤ 15 →
      (48 ≤ hexDigitChar n ∧ hexDigitChar n ≤ 57) ∨
        (97 ≤ hexDigitChar n ∧ hexDigitChar n ≤ 102) := by
    intro n hn
    unfold hexDigitChar
    split_ifs <;> omega
  have hb256 : b < 256 := h.2 b hb
  simp only [List.mem_cons, List.not_mem_nil, or_false] at hcl
  rcases hcl with rfl | rfl
  · exact hdig _ (by omega)
  · exact hdig _ (by omega)

-- Claim theorems.

/-- Claim C1: for every entity type (CompactSize, OutPoint, Script,
TransactionInput, BitcoinTransaction) and every constructed value `x` of that
type (well-formed, i.e. satisfying the Rust type invariants of its fields),
`from_bytes (to_bytes x)` succeeds and returns exactly
`(x, (to_bytes x).length)`. -/
theorem claim1_roundtrip :
    (∀ c : CompactSize, c.WF →
      CompactSize.from_bytes c.to_bytes = .ok c c.to_bytes.length) ∧
    (∀ o : OutPoint, o.WF →
      OutPoint.from_bytes o.to_bytes = .ok o o.to_bytes.length) ∧
    (∀ s : Script, s.WF →
      Script.from_bytes s.to_bytes = .ok s s.to_bytes.length) ∧
    (∀ i : TransactionInput, i.WF →
      TransactionInput.from_bytes i.to_bytes = .ok i i.to_bytes.length) ∧
    (∀ t : BitcoinTransaction, t.WF →
      BitcoinTransaction.from_bytes t.to_bytes = .ok t t.to_bytes.length) :=
  ⟨cs_roundtrip, op_roundtrip, script_roundtrip, ti_roundtrip, tx_roundtrip⟩

theorem claim1_witness :
    BitcoinTransaction.from_bytes (BitcoinTransaction.to_bytes
      ⟨2, [⟨⟨⟨List.replicate 32 7⟩, 9⟩, ⟨[0xDE, 0xAD]⟩, 0xFFFFFFFF⟩], 0x11223344⟩) =
    .ok ⟨2, [⟨⟨⟨List.replicate 32 7⟩, 9⟩, ⟨[0xDE, 0xAD]⟩, 0xFFFFFFFF⟩], 0x11223344⟩
      (BitcoinTransaction.to_bytes
        ⟨2, [⟨⟨⟨List.replicate 32 7⟩, 9⟩, ⟨[0xDE, 0xAD]⟩, 0xFFFFFFFF⟩],
          0x11223344⟩).length :=
  claim1_roundtrip.2.2.2.2 _ (by decide)

/-- Claim C2 (code bug): decoding is claimed to be total and free of panics
for all inputs, including a Script declared length near `u64::MAX` — but
`Script::from_bytes` evaluates `consumed + (len.value as usize)` in `usize`
arithmetic, and for the 9-byte input `FF FF FF FF FF FF FF FF FF` (a
canonical CompactSize declaring length `u64::MAX`) the sum overflows: a
debug build aborts on the addition, a release build wraps `total` to 8 and
aborts on the reversed slice `bytes[9..8]`.  The model evaluates this input
to the `panicked` outcome rather than an error value. -/
theorem claim2_script_decode_overflow :
    Script.from_bytes [0xFF, 0xFF, 0xFF, 0xFF, 0xFF, 0xFF, 0xFF, 0xFF, 0xFF] =
      .panicked := by
  decide

/-- Claim C3: `CompactSize::from_bytes` rejects every non-canonical encoding
with the invalid-format error whenever the payload is fully present: marker
`0xFD` with a 2-byte little-endian payload below `0xFD`, marker `0xFE` with a
4-byte payload below `0x10000`, and marker `0xFF` with an 8-byte payload
below `0x100000000`. -/
theorem claim3_noncanonical_rejected :
    (∀ b1 b2 : Nat, ∀ rest : List Nat, b1 + 256 * b2 < 0xFD →
      CompactSize.from_bytes (0xFD :: b1 :: b2 :: rest) = .err .InvalidFormat) ∧
    (∀ b1 b2 b3 b4 : Nat, ∀ rest : List Nat,
      b1 + 256 * (b2 + 256 * (b3 + 256 * b4)) < 0x10000 →
      CompactSize.from_bytes (0xFE :: b1 :: b2 :: b3 :: b4 :: rest) =
        .err .InvalidFormat) ∧
    (∀ b1 b2 b3 b4 b5 b6 b7 b8 : Nat, ∀ rest : List Nat,
      b1 + 256 * (b2 + 256 * (b3 + 256 * (b4 + 256 * (b5 + 256 * (b6 + 256 *
        (b7 + 256 * b8)))))) < 0x100000000 →
      CompactSize.from_bytes (0xFF :: b1 :: b2 :: b3 :: b4 :: b5 :: b6 :: b7 :: b8 ::
        rest) = .err .InvalidFormat) := by
  refine ⟨?_, ?_, ?_⟩
  · intro b1 b2 rest h
    rw [cs_fb_fd]
    unfold CompactSize.payloadArm
    have htake : (b1 :: b2 :: rest).take 2 = [b1, b2] := rfl
    rw [htake]
    have hval : leNat [b1, b2] = b1 + 256 * b2 := by simp [leNat]
    rw [hval, if_neg (by simp only [List.length_cons]; omega), if_pos h]
  · intro b1 b2 b3 b4 rest h
    rw [cs_fb_fe]
    unfold CompactSize.payloadArm
    have htake : (b1 :: b2 :: b3 :: b4 :: rest).take 4 = [b1, b2, b3, b4] := rfl
    rw [htake]
    have hval : leNat [b1, b2, b3, b4] = b1 + 256 * (b2 + 256 * (b3 + 256 * b4)) := by
      simp [leNat]
    rw [hval, if_neg (by simp only [List.length_cons]; omega), if_pos h]
  · intro b1 b2 b3 b4 b5 b6 b7 b8 rest h
    rw [cs_fb_ff]
    unfold CompactSize.payloadArm
    have htake : (b1 :: b2 :: b3 :: b4 :: b5 :: b6 :: b7 :: b8 :: rest).take 8 =
        [b1, b2, b3, b4, b5, b6, b7, b8] := rfl
    rw [htake]
    have hval : leNat [b1, b2, b3, b4, b5, b6, b7, b8] =
        b1 + 256 * (b2 + 256 * (b3 + 256 * (b4 + 256 * (b5 + 256 * (b6 + 256 *
          (b7 + 256 * b8)))))) := by
      simp [leNat]
    rw [hval, if_neg (by simp only [List.length_cons]; omega), if_pos h]

theorem claim3_witness :
    CompactSize.from_bytes [0xFD, 0x05, 0x00] = .err .InvalidFormat :=
  claim3_noncanonical_rejected.1 0x05 0x00 [] (by norm_num)

/-- Claim C4: `CompactSize::to_bytes` selects the smallest marker strictly by
value range (1 byte for `0..=0xFC`, `0xFD` + 2 LE bytes for `0xFD..=0xFFFF`,
`0xFE` + 4 LE bytes for `0x10000..=0xFFFFFFFF`, `0xFF` + 8 LE bytes above),
with widths 1, 3, 3, 5, 5, 9 at the boundary values `0xFC`, `0xFD`, `0xFFFF`,
`0x10000`, `0xFFFFFFFF`, `0x100000000`, and the concrete encodings of `0`,
`0xFFFF` and `0x10000` are `00`, `FD FF FF` and `FE 00 00 01 00`. -/
theorem claim4_to_bytes_layout :
    (∀ n : Nat, n ≤ 0xFC → CompactSize.to_bytes ⟨n⟩ = [n]) ∧
    (∀ n : Nat, 0xFD ≤ n → n ≤ 0xFFFF →
      CompactSize.to_bytes ⟨n⟩ = 0xFD :: natToLe 2 n) ∧
    (∀ n : Nat, 0x10000 ≤ n → n ≤ 0xFFFFFFFF →
      CompactSize.to_bytes ⟨n⟩ = 0xFE :: natToLe 4 n) ∧
    (∀ n : Nat, 0x100000000 ≤ n → CompactSize.to_bytes ⟨n⟩ = 0xFF :: natToLe 8 n) ∧
    (CompactSize.to_bytes ⟨0xFC⟩).length = 1 ∧
    (CompactSize.to_bytes ⟨0xFD⟩).length = 3 ∧
    (CompactSize.to_bytes ⟨0xFFFF⟩).length = 3 ∧
    (CompactSize.to_bytes ⟨0x10000⟩).length = 5 ∧
    (CompactSize.to_bytes ⟨0xFFFFFFFF⟩).length = 5 ∧
    (CompactSize.to_bytes ⟨0x100000000⟩).length = 9 ∧
    CompactSize.to_bytes ⟨0⟩ = [0x00] ∧
    CompactSize.to_bytes ⟨0xFFFF⟩ = [0xFD, 0xFF, 0xFF] ∧
    CompactSize.to_bytes ⟨0x10000⟩ = [0xFE, 0x00, 0x00, 0x01, 0x00] := by
  refine ⟨fun n h => cs_to_bytes_u8 h, fun n h1 h2 => cs_to_bytes_fd h1 h2,
    fun n h1 h2 => cs_to_bytes_fe h1 h2, fun n h1 => cs_to_bytes_ff h1,
    ?_, ?_, ?_, ?_, ?_, ?_, ?_, ?_, ?_⟩ <;> decide

theorem claim4_witness : CompactSize.to_bytes ⟨0x1234⟩ = 0xFD :: natToLe 2 0x1234 :=
  claim4_to_bytes_layout.2.1 0x1234 (by norm_num) (by norm_num)

/-- Claim C5: for every entity type and every byte input on which
`from_bytes` succeeds returning `(value, consumed)`, re-encoding the value
with `to_bytes` reproduces exactly the first `consumed` bytes of the input. -/
theorem claim5_encode_after_decode :
    (∀ (bs : List Nat) (c : CompactSize) (k : Nat), ByteWF bs →
      CompactSize.from_bytes bs = .ok c k → c.to_bytes = bs.take k) ∧
    (∀ (bs : List Nat) (o : OutPoint) (k : Nat), ByteWF bs →
      OutPoint.from_bytes bs = .ok o k → o.to_bytes = bs.take k) ∧
    (∀ (bs : List Nat) (s : Script) (k : Nat), ByteWF bs →
      Script.from_bytes bs = .ok s k → s.to_bytes = bs.take k) ∧
    (∀ (bs : List Nat) (i : TransactionInput) (k : Nat), ByteWF bs →
      TransactionInput.from_bytes bs = .ok i k → i.to_bytes = bs.take k) ∧
    (∀ (bs : List Nat) (t : BitcoinTransaction) (k : Nat), ByteWF bs →
      BitcoinTransaction.from_bytes bs = .ok t k → t.to_bytes = bs.take k) :=
  ⟨fun _ _ _ hwf h => cs_c5 hwf h, fun _ _ _ hwf h => op_c5 hwf h,
    fun _ _ _ hwf h => script_c5 hwf h, fun _ _ _ hwf h => ti_c5 hwf h,
    fun _ _ _ hwf h => tx_c5 hwf h⟩

theorem claim5_witness :
    (⟨0x1234⟩ : CompactSize).to_bytes = ([0xFD, 0x34, 0x12, 99] : List Nat).take 3 :=
  claim5_encode_after_decode.1 [0xFD, 0x34, 0x12, 99] ⟨0x1234⟩ 3 (by decide) (by decide)

/-- Claim C6: for every entity type, every constructed (well-formed) value
`x`, and every strict prefix of `to_bytes x` (at least one trailing byte
removed), `from_bytes` on that prefix fails with the insufficient-bytes
error — never invalid-format and never a spurious success. -/
theorem claim6_truncation :
    (∀ c : CompactSize, c.WF → ∀ k < c.to_bytes.length,
      CompactSize.from_bytes (c.to_bytes.take k) = .err .InsufficientBytes) ∧
    (∀ o : OutPoint, o.WF → ∀ k < o.to_bytes.length,
      OutPoint.from_bytes (o.to_bytes.take k) = .err .InsufficientBytes) ∧
    (∀ s : Script, s.WF → ∀ k < s.to_bytes.length,
      Script.from_bytes (s.to_bytes.take k) = .err .InsufficientBytes) ∧
    (∀ i : TransactionInput, i.WF → ∀ k < i.to_bytes.length,
      TransactionInput.from_bytes (i.to_bytes.take k) = .err .InsufficientBytes) ∧
    (∀ t : BitcoinTransaction, t.WF → ∀ k < t.to_bytes.length,
      BitcoinTransaction.from_bytes (t.to_bytes.take k) = .err .InsufficientBytes) :=
  ⟨cs_trunc, op_trunc, script_trunc, ti_trunc, tx_trunc⟩

theorem claim6_witness :
    CompactSize.from_bytes ((⟨0x1234⟩ : CompactSize).to_bytes.take 1) =
      .err .InsufficientBytes :=
  claim6_truncation.1 ⟨0x1234⟩ (by decide) 1 (by decide)

/-- Claim C7 (code bug): `Script::from_bytes` is claimed to fail with
insufficient-bytes whenever the declared length exceeds the remaining
buffer, but for the input `FF F7 FF FF FF FF FF FF FF` (declared length
`u64::MAX - 8`, zero payload bytes remaining) the `usize` sum
`consumed + len` equals exactly `2^64` and the program aborts instead of
returning the error. -/
theorem claim7_script_length_mismatch_overflow :
    Script.from_bytes [0xFF, 0xF7, 0xFF, 0xFF, 0xFF, 0xFF, 0xFF, 0xFF, 0xFF] =
      .panicked := by
  decide

/-- Claim C8: hex round-trip of the 32-byte identifier — serializing a Txid
and deserializing the text reproduces it; every 63- or 65-character string
fails hex decoding (odd length), and any string containing a non-hex
character fails with the propagated hex error. -/
theorem claim8_txid_hex :
    (∀ t : Txid, t.WF → Txid.deserializeHex (Txid.serializeHex t) = .ok t) ∧
    (∀ s : List Nat, s.length = 63 → Txid.deserializeHex s = .error .invalidHex) ∧
    (∀ s : List Nat, s.length = 65 → Txid.deserializeHex s = .error .invalidHex) ∧
    (∀ s : List Nat, (∃ c ∈ s, hexDigitVal c = none) →
      Txid.deserializeHex s = .error .invalidHex) := by
  refine ⟨txid_hex_roundtrip, ?_, ?_, ?_⟩
  · intro s hlen
    unfold Txid.deserializeHex
    rw [hexDecode_odd s (by omega)]
  · intro s hlen
    unfold Txid.deserializeHex
    rw [hexDecode_odd s (by omega)]
  · intro s hc
    unfold Txid.deserializeHex
    rw [hexDecode_nonhex s hc]

theorem claim8_witness :
    Txid.deserializeHex (Txid.serializeHex ⟨List.replicate 32 0xAB⟩) =
      .ok ⟨List.replicate 32 0xAB⟩ :=
  claim8_txid_hex.1 ⟨List.replicate 32 0xAB⟩ (by decide)

/-- Claim C9: every decoder depends only on the bytes it consumes — on
success the consumed count never exceeds the input length, and appending
arbitrary extra bytes leaves the result unchanged. -/
theorem claim9_decoder_locality :
    (∀ (bs ex : List Nat) (c : CompactSize) (k : Nat),
      CompactSize.from_bytes bs = .ok c k →
      k ≤ bs.length ∧ CompactSize.from_bytes (bs ++ ex) = .ok c k) ∧
    (∀ (bs ex : List Nat) (o : OutPoint) (k : Nat),
      OutPoint.from_bytes bs = .ok o k →
      k ≤ bs.length ∧ OutPoint.from_bytes (bs ++ ex) = .ok o k) ∧
    (∀ (bs ex : List Nat) (s : Script) (k : Nat),
      Script.from_bytes bs = .ok s k →
      k ≤ bs.length ∧ Script.from_bytes (bs ++ ex) = .ok s k) ∧
    (∀ (bs ex : List Nat) (i : TransactionInput) (k : Nat),
      TransactionInput.from_bytes bs = .ok i k →
      k ≤ bs.length ∧ TransactionInput.from_bytes (bs ++ ex) = .ok i k) ∧
    (∀ (bs ex : List Nat) (t : BitcoinTransaction) (k : Nat),
      BitcoinTransaction.from_bytes bs = .ok t k →
      k ≤ bs.length ∧ BitcoinTransaction.from_bytes (bs ++ ex) = .ok t k) := by
  refine ⟨?_, ?_, ?_, ?_, ?_⟩
  · intro bs ex c k h
    exact ⟨(cs_ok_facts h).2, cs_ok_append h⟩
  · intro bs ex o k h
    obtain ⟨hk, hl, -⟩ := op_ok_facts h
    exact ⟨by omega, op_ok_append h⟩
  · intro bs ex s k h
    obtain ⟨len, consumed, -, -, -, hle, -⟩ := script_ok_facts h
    exact ⟨hle, script_ok_append h⟩
  · intro bs ex i k h
    obtain ⟨o, s, c2, -, -, -, hle, -⟩ := ti_ok_facts h
    exact ⟨hle, ti_ok_append h⟩
  · intro bs ex t k h
    obtain ⟨cnt, c1, inputs, off, -, -, -, -, hle, -⟩ := tx_ok_facts h
    exact ⟨hle, tx_ok_append h⟩

theorem claim9_witness :
    1 ≤ ([5] : List Nat).length ∧
      CompactSize.from_bytes (([5] : List Nat) ++ [9, 9]) = .ok ⟨5⟩ 1 :=
  claim9_decoder_locality.1 [5] [9, 9] ⟨5⟩ 1 (by decide)

/-- Claim C10: identifier textual decoding is case-insensitive — hex decoding
is invariant under uppercasing the input, so the uppercased serialization of
any Txid still deserializes to the same 32 bytes, even though serialization
itself always emits lowercase characters. -/
theorem claim10_hex_case_insensitive :
    (∀ s : List Nat, hexDecode (s.map hexUpper) = hexDecode s) ∧
    (∀ t : Txid, t.WF →
      Txid.deserializeHex ((Txid.serializeHex t).map hexUpper) = .ok t) ∧
    (∀ t : Txid, t.WF → ∀ c ∈ Txid.serializeHex t,
      (48 ≤ c ∧ c ≤ 57) ∨ (97 ≤ c ∧ c ≤ 102)) := by
  refine ⟨hexDecode_upper, ?_, txid_serialize_lowercase⟩
  intro t ht
  have h := txid_hex_roundtrip t ht
  unfold Txid.deserializeHex at h ⊢
  rw [hexDecode_upper]
  exact h

theorem claim10_witness :
    Txid.deserializeHex ((Txid.serializeHex ⟨List.replicate 32 0xCD⟩).map hexUpper) =
      .ok ⟨List.replicate 32 0xCD⟩ :=
  claim10_hex_case_insensitive.2.1 ⟨List.replicate 32 0xCD⟩ (by decide)
